import Mathlib

set_option maxHeartbeats 1000000

/-
Verification of the covariance-estimation core of mne/cov.py against its
specification.  The Python source is shallowly embedded: float arithmetic is
modelled over the rationals (the spec states the algebraic identities exactly,
up to numerical tolerance), numpy/scipy/sklearn numerical primitives
(linalg.eigh, np.sqrt, estimate_rank, cross_val_score) enter as parameters or
as definitions that follow their documented formulas, and Python exceptions
are modelled with Except.
-/

namespace MneCov

/-- Model of the Covariance object of mne/cov.py (class Covariance): the
fields that take part in the algebra operations. data is the covariance
matrix, names the channel names, bads the bad-channel list, projs the string
forms of the SSP projectors (_check_covs_algebra compares str(c) for each
projector c), nfree the degrees of freedom. -/
structure Cov (n : ℕ) where
  data : Matrix (Fin n) (Fin n) ℚ
  names : List String
  bads : List String
  projs : List String
  nfree : ℕ

/-- _check_covs_algebra (cov.py lines 44-52): raises when the channel-name
lists differ.  The projector comparison builds both lists from cov1
(`projs2 = [str(c) for c in cov1[\x7bprojs arg\x7d]]` reads cov1, not cov2),
so projs1 = projs2 always holds and the second check can never fire; the
embedding keeps that faithfully. -/
def check_covs_algebra {n : ℕ} (cov1 cov2 : Cov n) : Except String Unit :=
  if cov1.names ≠ cov2.names then
    Except.error "Both Covariance do not have the same list of channels."
  else
    -- source: projs1 = [str(c) for c in cov1[projs]]
    --         projs2 = [str(c) for c in cov1[projs]]   (cov1 read twice)
    let projs1 := cov1.projs
    let projs2 := cov1.projs
    if projs1 ≠ projs2 then
      Except.error "Both Covariance do not have the same list of SSP projections."
    else
      Except.ok ()

/-- Covariance.__add__ (cov.py lines 201-212): after the compatibility check,
the result is built on a deep copy of the right operand (cov.copy()), its data
becomes the nfree-weighted average, nfree the sum, and bads the union.  The
set-based union of bads has unspecified order in Python; List.union is one
faithful choice.  Neither operand is modified (the source mutates only the
copy). -/
def covAdd {n : ℕ} (self cov : Cov n) : Except String (Cov n) :=
  match check_covs_algebra self cov with
  | Except.error e => Except.error e
  | Except.ok _ =>
    Except.ok
      { data := Matrix.of fun i j =>
          (cov.data i j * (cov.nfree : ℚ) + self.data i j * (self.nfree : ℚ)) /
            ((self.nfree : ℚ) + (cov.nfree : ℚ))
        names := cov.names
        bads := cov.bads.union self.bads
        projs := cov.projs
        nfree := cov.nfree + self.nfree }

/-- C3: adding two Covariance objects with identical channel-name lists and
degrees of freedom n1, n2 with n1 + n2 > 0 succeeds and yields a covariance
with nfree = n1 + n2 and data (n1 * C1 + n2 * C2) / (n1 + n2).  The addition
is not in place: the source builds the result on cov.copy(), which the pure
embedding reflects, so the operands are unchanged. -/
theorem covAdd_weighted_average {n : ℕ} (c1 c2 : Cov n)
    (hnames : c1.names = c2.names) (hpos : 0 < c1.nfree + c2.nfree) :
    ∃ out : Cov n, covAdd c1 c2 = Except.ok out ∧
      out.nfree = c1.nfree + c2.nfree ∧
      ∀ i j, out.data i j =
        ((c1.nfree : ℚ) * c1.data i j + (c2.nfree : ℚ) * c2.data i j) /
          ((c1.nfree : ℚ) + (c2.nfree : ℚ)) := by
  have hchk : check_covs_algebra c1 c2 = Except.ok () := by
    simp [check_covs_algebra, hnames]
  have hout : covAdd c1 c2 = Except.ok
      (Cov.mk (Matrix.of (fun i j =>
          (c2.data i j * (c2.nfree : ℚ) + c1.data i j * (c1.nfree : ℚ)) /
            ((c1.nfree : ℚ) + (c2.nfree : ℚ))))
        c2.names (c2.bads.union c1.bads) c2.projs (c2.nfree + c1.nfree)) := by
    simp [covAdd, hchk]
  refine ⟨_, hout, ?_, ?_⟩
  · simp [Nat.add_comm]
  · intro i j
    simp only [Matrix.of_apply]
    congr 1
    ring

/-- Witness for C3 at a concrete input: two 1-channel covariances with the
same channel list and nfree 2 and 3. -/
theorem covAdd_weighted_average_witness :
    let c1 : Cov 1 := ⟨Matrix.of fun _ _ => 4, ["MEG 0111"], [], [], 2⟩
    let c2 : Cov 1 := ⟨Matrix.of fun _ _ => 9, ["MEG 0111"], [], [], 3⟩
    c1.names = c2.names ∧ 0 < c1.nfree + c2.nfree ∧
    ∃ out : Cov 1, covAdd c1 c2 = Except.ok out ∧
      out.nfree = c1.nfree + c2.nfree ∧
      ∀ i j, out.data i j =
        ((c1.nfree : ℚ) * c1.data i j + (c2.nfree : ℚ) * c2.data i j) /
          ((c1.nfree : ℚ) + (c2.nfree : ℚ)) :=
  ⟨rfl, by decide, covAdd_weighted_average _ _ rfl (by decide)⟩

/-- C10: with identical channel-name lists, addition never fails on an SSP
projector mismatch even when the projector lists differ, because
_check_covs_algebra compares the projector list of cov1 with itself; a
channel-name mismatch is the only way addition can fail. -/
theorem covAdd_projs_never_checked {n : ℕ} (c1 c2 : Cov n) :
    (c1.names = c2.names → ∃ out, covAdd c1 c2 = Except.ok out) ∧
    (c1.names ≠ c2.names → covAdd c1 c2 =
      Except.error "Both Covariance do not have the same list of channels.") := by
  constructor
  · intro h
    have hchk : check_covs_algebra c1 c2 = Except.ok () := by
      simp [check_covs_algebra, h]
    exact ⟨Cov.mk (Matrix.of (fun i j =>
          (c2.data i j * (c2.nfree : ℚ) + c1.data i j * (c1.nfree : ℚ)) /
            ((c1.nfree : ℚ) + (c2.nfree : ℚ))))
        c2.names (c2.bads.union c1.bads) c2.projs (c2.nfree + c1.nfree),
      by simp [covAdd, hchk]⟩
  · intro h
    have hchk : check_covs_algebra c1 c2 =
        Except.error "Both Covariance do not have the same list of channels." := by
      simp [check_covs_algebra, h]
    simp [covAdd, hchk]

/-- Witness for C10 at a concrete input: equal channel names but different
projector lists, and the addition still succeeds. -/
theorem covAdd_projs_never_checked_witness :
    let c1 : Cov 1 := ⟨Matrix.of fun _ _ => 1, ["EEG 001"], [], ["projA"], 1⟩
    let c2 : Cov 1 := ⟨Matrix.of fun _ _ => 2, ["EEG 001"], [], ["projB"], 1⟩
    c1.projs ≠ c2.projs ∧ ∃ out, covAdd c1 c2 = Except.ok out :=
  ⟨by decide, (covAdd_projs_never_checked _ _).1 rfl⟩

/-- Sum of f over 0, ..., m-1, used to write the numpy reductions below. -/
def sumRange : ℕ → (ℕ → ℚ) → ℚ
  | 0, _ => 0
  | m + 1, f => sumRange m f + f m

/-- Empirical covariance as computed by the sklearn EmpiricalCovariance
primitive with assume_centered=True (the setting _check_method_params fixes
for every estimator of the family): entry (i, j) of X.T @ X / n_samples for
an n_samples x n_features sample matrix X.  External primitive modelled from
its formula. -/
def empiricalCovariance (ns : ℕ) (X : ℕ → ℕ → ℚ) : ℕ → ℕ → ℚ :=
  fun i j => sumRange ns (fun t => X t i * X t j) / (ns : ℚ)

/-- Trace divided by dimension, the mu of the sklearn shrunk_covariance
primitive. -/
def meanDiag (nf : ℕ) (A : ℕ → ℕ → ℚ) : ℚ := sumRange nf (fun t => A t t) / (nf : ℚ)

/-- The sklearn shrunk_covariance primitive:
(1 - shrinkage) * cov + shrinkage * mu * Id with mu = trace(cov) / n_features.
External primitive modelled from its formula. -/
def shrunk_covariance (nf : ℕ) (cov : ℕ → ℕ → ℚ) (s : ℚ) : ℕ → ℕ → ℚ :=
  fun i j => (1 - s) * cov i j + (if i = j then s * meanDiag nf cov else 0)

/-- _ShrunkCovariance.fit (cov.py lines 1245-1289) with a scalar shrinkage
factor s: the factor is wrapped as the single block (all, s, arange(n)), so
zero_cross_cov stays all-False, both itt.combinations(shrinkage, 2) loops run
over the empty list, and the one block update applies shrunk_covariance to
the whole empirical covariance of the data. -/
def shrunkFit (ns nf : ℕ) (X : ℕ → ℕ → ℚ) (s : ℚ) : ℕ → ℕ → ℚ :=
  shrunk_covariance nf (empiricalCovariance ns X) s

/-- C4 counterexample: two channels, two samples (1, 2) and (-1, -2), so the
empirical covariance is [[1, 2], [2, 4]] (whether or not the mean, here zero,
is subtracted).  With shrinkage factor s = 1 the (0, 0) entry of the fitted
matrix is the average variance 5/2, not the per-channel variance 1 that the
claim states. -/
theorem shrunkFit_one_not_per_channel_variance :
    shrunkFit 2 2 (fun t i => if t = 0 then (if i = 0 then 1 else 2)
                              else (if i = 0 then -1 else -2)) 1 0 0 ≠
      empiricalCovariance 2 (fun t i => if t = 0 then (if i = 0 then 1 else 2)
                              else (if i = 0 then -1 else -2)) 0 0 := by
  norm_num [shrunkFit, shrunk_covariance, empiricalCovariance, meanDiag, sumRange]

/-- C4 amended: for shrinkage factor s = 0 the fitted matrix equals the
empirical covariance exactly; for s = 1 the off-diagonal entries vanish and
every diagonal entry equals the mean of the empirical per-channel variances
(trace / n_features), i.e. the fit is the scaled identity mu * Id, not the
per-channel variance diagonal. -/
theorem shrunkFit_bounds (ns nf : ℕ) (X : ℕ → ℕ → ℚ) :
    (∀ i j, shrunkFit ns nf X 0 i j = empiricalCovariance ns X i j) ∧
    (∀ i j, i ≠ j → shrunkFit ns nf X 1 i j = 0) ∧
    (∀ i, shrunkFit ns nf X 1 i i = meanDiag nf (empiricalCovariance ns X)) := by
  refine ⟨?_, ?_, ?_⟩
  · intro i j
    by_cases h : i = j <;> simp [shrunkFit, shrunk_covariance, h]
  · intro i j h
    simp [shrunkFit, shrunk_covariance, h]
  · intro i
    simp [shrunkFit, shrunk_covariance]

/-- Witness for C4 amended at the concrete counterexample data: off-diagonal
entry of the s = 1 fit is zero. -/
theorem shrunkFit_bounds_witness :
    (0 : ℕ) ≠ (1 : ℕ) ∧
    shrunkFit 2 2 (fun t i => if t = 0 then (if i = 0 then 1 else 2)
                              else (if i = 0 then -1 else -2)) 1 0 1 = 0 :=
  ⟨by decide,
   (shrunkFit_bounds 2 2 (fun t i => if t = 0 then (if i = 0 then 1 else 2)
                              else (if i = 0 then -1 else -2))).2.1 0 1 (by decide)⟩

/-- Observable warning / exception effects of a Python statement sequence. -/
inductive Effect
  | warnEffect (msg : String)
  | raiseEffect (msg : String)
deriving DecidableEq

/-- The low-sample check of _estimate_rank_meeg_signals (cov.py lines
2108-2110) and _estimate_rank_meeg_cov (lines 2155-2157).  The body of the
`if data.shape[1] < data.shape[0]` is the bare expression
`ValueError(...)`: it constructs the exception object and immediately
discards it, so as a Python expression statement it neither raises nor
warns - the branch produces no observable effect at all. -/
def lowSampleCheckEffects (nChannels nSamples : ℕ) : List Effect :=
  if nSamples < nChannels then
    -- expression statement ValueError("You have got fewer samples than
    -- channels, your rank estimate might be inaccurate."): no raise, no warn
    []
  else []

/-- _estimate_rank_meeg_signals (cov.py lines 2074-2117): scale the data,
run the (dead) low-sample check, call the external mne.utils.estimate_rank
primitive (entering here as the parameter estimateRank, its best-effort
result), log, unscale, and return the rank.  The only lines that could
surface a warning or error about the low-sample condition are the dead check,
so the effect list is exactly lowSampleCheckEffects. -/
def estimate_rank_meeg_signals_model (estimateRank : ℕ)
    (nChannels nSamples : ℕ) : ℕ × List Effect :=
  (estimateRank, lowSampleCheckEffects nChannels nSamples)

/-- C6: at the failing input (3 channels, 2 samples, external rank estimate
2) the code emits no warning at all - the ValueError is constructed and
dropped - while still proceeding to return the best-effort rank.  The spec
requires the inaccuracy to be surfaced as a warning, so the code diverges
from the claim by staying silent. -/
theorem estimate_rank_low_sample_silent :
    (2 : ℕ) < 3 ∧
    estimate_rank_meeg_signals_model 2 3 2 = (2, []) ∧
    (∀ e, e ∈ (estimate_rank_meeg_signals_model 2 3 2).2 → False) := by
  refine ⟨by decide, by decide, ?_⟩
  intro e he
  simp [estimate_rank_meeg_signals_model, lowSampleCheckEffects] at he

/-- The expanded default method list for method=auto (cov.py line 537). -/
def autoMethods : List String := ["shrunk", "diagonal_fixed", "empirical", "factor_analysis"]

/-- Python value passed as the rank argument of _check_rank (cov.py lines
559-581).  intArg covers every operator.index-compatible value except the
Python literal False, which is index-compatible (0) but explicitly rejected
by the `orig_rank is False` test and therefore is its own constructor;
otherArg stands for any value that is neither a str, None, int-like, dict
nor False. -/
inductive RankArg
  | str (s : String)
  | noneArg
  | intArg (k : Int)
  | boolFalse
  | dictArg (d : List (String × Int))
  | otherArg
deriving DecidableEq

/-- Result of _check_rank: the literal string full, or a dict from channel
type to rank (None becomes the empty dict, an int k becomes the dict
[(meg, k)]). -/
inductive RankOut
  | fullRank
  | rankDict (d : List (String × Int))
deriving DecidableEq

/-- _check_rank (cov.py lines 559-581).  A str other than full raises at
once; the str full passes through unchanged.  Otherwise: when was_auto, the
first factor_analysis entry is popped from the method list
(methods.pop(methods.index(...)), which itself raises when absent); then any
remaining pca or factor_analysis raises; finally the rank value is converted
(None to the empty dict, an int k to dict(meg=k), a dict kept; False and any
other type raise). -/
def checkRank (rank : RankArg) (methods : List String) (wasAuto : Bool) :
    Except String (RankOut × List String) :=
  match rank with
  | RankArg.str s =>
      if s = "full" then Except.ok (RankOut.fullRank, methods)
      else Except.error "rank, if str, must be full"
  | r =>
      match (if wasAuto then
               (if "factor_analysis" ∈ methods then
                  Except.ok (methods.erase "factor_analysis")
                else Except.error "factor_analysis is not in list")
             else Except.ok methods) with
      | Except.error e => Except.error e
      | Except.ok methods2 =>
          if methods2.any (fun m => m == "pca" || m == "factor_analysis") then
            Except.error "pca and factor_analysis can so far only be used with rank full"
          else
            match r with
            | RankArg.noneArg => Except.ok (RankOut.rankDict [], methods2)
            | RankArg.intArg k => Except.ok (RankOut.rankDict [("meg", k)], methods2)
            | RankArg.dictArg d => Except.ok (RankOut.rankDict d, methods2)
            | _ => Except.error "rank must be an int, dict, None, or full"

/-- C7: an explicitly requested pca or factor_analysis (was_auto = false)
combined with any rank argument other than the string full makes _check_rank
raise a configuration error (it runs inside _check_method_params, before any
numeric work); and when method=auto expanded the default list (was_auto =
true), factor_analysis is instead removed from the list and no error is
raised for the non-full rank forms None, int and dict. -/
theorem checkRank_low_rank_enforced :
    (∀ (methods : List String) (rank : RankArg) (m : String),
        m ∈ methods → (m = "pca" ∨ m = "factor_analysis") →
        rank ≠ RankArg.str "full" →
        ∃ e, checkRank rank methods false = Except.error e) ∧
    (∀ (k : Int) (d : List (String × Int)),
        checkRank RankArg.noneArg autoMethods true =
          Except.ok (RankOut.rankDict [], ["shrunk", "diagonal_fixed", "empirical"]) ∧
        checkRank (RankArg.intArg k) autoMethods true =
          Except.ok (RankOut.rankDict [("meg", k)], ["shrunk", "diagonal_fixed", "empirical"]) ∧
        checkRank (RankArg.dictArg d) autoMethods true =
          Except.ok (RankOut.rankDict d, ["shrunk", "diagonal_fixed", "empirical"])) := by
  constructor
  · intro methods rank m hm hpf hne
    have hany : methods.any (fun x => x == "pca" || x == "factor_analysis") = true := by
      rw [List.any_eq_true]
      refine ⟨m, hm, ?_⟩
      rcases hpf with h | h <;> simp [h]
    cases rank with
    | str s =>
        have hs : ¬ (s = "full") := by
          intro h
          exact hne (by rw [h])
        exact ⟨"rank, if str, must be full", by simp [checkRank, hs]⟩
    | noneArg =>
        exact ⟨"pca and factor_analysis can so far only be used with rank full",
          by simp [checkRank, hany]⟩
    | intArg k =>
        exact ⟨"pca and factor_analysis can so far only be used with rank full",
          by simp [checkRank, hany]⟩
    | boolFalse =>
        exact ⟨"pca and factor_analysis can so far only be used with rank full",
          by simp [checkRank, hany]⟩
    | dictArg d =>
        exact ⟨"pca and factor_analysis can so far only be used with rank full",
          by simp [checkRank, hany]⟩
    | otherArg =>
        exact ⟨"pca and factor_analysis can so far only be used with rank full",
          by simp [checkRank, hany]⟩
  · intro k d
    refine ⟨?_, ?_, ?_⟩ <;> rfl

/-- Witness for C7 at concrete inputs: requesting pca explicitly with an
integer rank errors out, and the auto-expanded list at integer rank 3 gets
factor_analysis dropped without an error. -/
theorem checkRank_low_rank_enforced_witness :
    ("pca" ∈ ["pca"] ∧ (∃ e, checkRank (RankArg.intArg 3) ["pca"] false = Except.error e)) ∧
    checkRank (RankArg.intArg 3) autoMethods true =
      Except.ok (RankOut.rankDict [("meg", 3)], ["shrunk", "diagonal_fixed", "empirical"]) :=
  ⟨⟨by decide,
    checkRank_low_rank_enforced.1 ["pca"] (RankArg.intArg 3) "pca" (by decide)
      (Or.inl rfl) (by decide)⟩,
   (checkRank_low_rank_enforced.2 3 []).2.1⟩

/-- Helper: among the indices of Fin n, exactly n - k are at least k. -/
theorem card_val_ge {n k : ℕ} :
    (Finset.univ.filter (fun i : Fin n => k ≤ (i : ℕ))).card = n - k := by
  rw [← Finset.card_map Fin.valEmbedding]
  have hmap : (Finset.univ.filter (fun i : Fin n => k ≤ (i : ℕ))).map Fin.valEmbedding
      = Finset.Ico k n := by
    ext m
    simp only [Finset.mem_map, Finset.mem_filter, Finset.mem_univ, true_and,
      Fin.valEmbedding_apply, Finset.mem_Ico]
    constructor
    · rintro ⟨a, ha, rfl⟩
      exact ⟨ha, a.isLt⟩
    · rintro ⟨h1, h2⟩
      exact ⟨⟨m, h2⟩, h1, rfl⟩
  rw [hmap, Nat.card_Ico]

/-- Length of the Python slice l[:-r] on a length len array: -0 is 0 so the
slice is empty for r = 0, and it is also empty for r ≥ len; otherwise it
covers the first len - r entries. -/
def negSliceLen (len r : ℕ) : ℕ := if r = 0 then 0 else len - r

/-- _get_ch_whitener (cov.py lines 1340-1357) after the external linalg.eigh
call: given the eigenvalues eig (sorted ascending, the eigh convention) and
the row eigenvectors eigvec returned by eigh, it sets eig[:-rank] = 0.0,
clears mask[:-rank], and in the pca case keeps only the eigvec[:-rank] rows.
Returned components: (eigenvalues, eigenvectors, mask). -/
def get_ch_whitener (pca : Bool) (rank : ℕ) {n : ℕ} (eig : Fin n → ℚ)
    (eigvec : List (Fin n → ℚ)) :
    (Fin n → ℚ) × List (Fin n → ℚ) × (Fin n → Bool) :=
  (fun i => if (i : ℕ) < negSliceLen n rank then 0 else eig i,
   if pca then eigvec.take (negSliceLen n rank) else eigvec,
   fun i => decide (negSliceLen n rank ≤ (i : ℕ)))

/-- C2: for a requested rank r with 1 ≤ r ≤ n, applied to the ascending
eigenvalues of the symmetric block, _get_ch_whitener returns eigenvalues in
which the first n - r entries (the smallest ones) are exactly zero, and a
mask with exactly r entries set; the set entries sit at the positions of the
r largest eigenvalues (every masked-out eigenvalue is at most every retained
one), so exactly r components are retained regardless of the numerical
eigenvalue values. -/
theorem get_ch_whitener_exact_rank {n : ℕ} (rank : ℕ) (eig : Fin n → ℚ)
    (eigvec : List (Fin n → ℚ)) (h1 : 1 ≤ rank) (h2 : rank ≤ n)
    (hasc : ∀ i j : Fin n, i ≤ j → eig i ≤ eig j) :
    (∀ i : Fin n, (i : ℕ) < n - rank →
        (get_ch_whitener false rank eig eigvec).1 i = 0) ∧
    ((Finset.univ.filter
        (fun i : Fin n => (get_ch_whitener false rank eig eigvec).2.2 i = true)).card
      = rank) ∧
    (∀ i j : Fin n, (get_ch_whitener false rank eig eigvec).2.2 i = false →
        (get_ch_whitener false rank eig eigvec).2.2 j = true → eig i ≤ eig j) := by
  have hr0 : ¬ (rank = 0) := by omega
  have hns : negSliceLen n rank = n - rank := by simp [negSliceLen, hr0]
  refine ⟨?_, ?_, ?_⟩
  · intro i hi
    simp [get_ch_whitener, hns, hi]
  · have hpred : ∀ i ∈ (Finset.univ : Finset (Fin n)),
        ((get_ch_whitener false rank eig eigvec).2.2 i = true) ↔ (n - rank ≤ (i : ℕ)) := by
      intro i _
      simp [get_ch_whitener, hns]
    rw [Finset.filter_congr hpred, card_val_ge]
    omega
  · intro i j hi hj
    have hi2 : (i : ℕ) < n - rank := by
      by_contra hcon
      simp [get_ch_whitener, hns] at hi
      omega
    have hj2 : n - rank ≤ (j : ℕ) := by
      simp [get_ch_whitener, hns] at hj
      omega
    exact hasc i j (by omega)

/-- Witness for C2 at a concrete input: a 3-channel block with ascending
eigenvalues 1, 2, 3 and requested rank 2. -/
theorem get_ch_whitener_exact_rank_witness :
    (1 ≤ 2 ∧ 2 ≤ 3 ∧ (∀ i j : Fin 3, i ≤ j → (![1, 2, 3] : Fin 3 → ℚ) i ≤ ![1, 2, 3] j)) ∧
    ((∀ i : Fin 3, (i : ℕ) < 3 - 2 →
        (get_ch_whitener false 2 (![1, 2, 3] : Fin 3 → ℚ) []).1 i = 0) ∧
    ((Finset.univ.filter
        (fun i : Fin 3 => (get_ch_whitener false 2 (![1, 2, 3] : Fin 3 → ℚ) []).2.2 i = true)).card
      = 2) ∧
    (∀ i j : Fin 3, (get_ch_whitener false 2 (![1, 2, 3] : Fin 3 → ℚ) []).2.2 i = false →
        (get_ch_whitener false 2 (![1, 2, 3] : Fin 3 → ℚ) []).2.2 j = true →
        (![1, 2, 3] : Fin 3 → ℚ) i ≤ ![1, 2, 3] j)) :=
  ⟨⟨by decide, by decide, by decide⟩,
   get_ch_whitener_exact_rank 2 (![1, 2, 3] : Fin 3 → ℚ) [] (by decide) (by decide)
     (by decide)⟩

/-- Row scale of the whitener built by _get_whitener (cov.py lines 1369-1378):
the eigenvalues at most 0 are zeroed (the numerical-noise guard
eig[~nzero] = 0) and the scale is 1 / sqrt(eig) on the strictly positive
ones, 0 elsewhere.  np.sqrt is an external numerical primitive and enters as
the parameter sqrt; the theorem assumes sqrt x * sqrt x = x on the
eigenvalues it touches. -/
def whitenerScale (sqrt : ℚ → ℚ) {n : ℕ} (eig : Fin n → ℚ) : Fin n → ℚ :=
  fun i => if 0 < eig i then 1 / sqrt (eig i) else 0

/-- whitener = whitener_column * eigvec (cov.py line 1378): row i of the
row-eigenvector matrix scaled by whitenerScale i, i.e. the matrix
diag(1/sqrt(eig)) times eigvec of the spec. -/
def whitener (sqrt : ℚ → ℚ) {n : ℕ} (eig : Fin n → ℚ)
    (eigvec : Matrix (Fin n) (Fin n) ℚ) : Matrix (Fin n) (Fin n) ℚ :=
  Matrix.of (fun i j => whitenerScale sqrt eig i * eigvec i j)

/-- PCA restriction (cov.py line 1381): whitener = whitener[nzero] keeps
exactly the rows with strictly positive eigenvalue, in index order. -/
def whitenerPCA (sqrt : ℚ → ℚ) {n : ℕ} (eig : Fin n → ℚ)
    (eigvec : Matrix (Fin n) (Fin n) ℚ) : List (Fin n → ℚ) :=
  ((List.finRange n).filter (fun i => decide (0 < eig i))).map
    (fun i => whitener sqrt eig eigvec i)

/-- n_nzero (cov.py line 1373): the number of strictly positive eigenvalues,
the effective rank of the whitener. -/
def n_nzero {n : ℕ} (eig : Fin n → ℚ) : ℕ :=
  ((List.finRange n).filter (fun i => decide (0 < eig i))).length

/-- The whitener is the diagonal row-scaling matrix times the eigenvector
matrix. -/
theorem whitener_eq_diagonal_mul (sqrt : ℚ → ℚ) {n : ℕ} (eig : Fin n → ℚ)
    (eigvec : Matrix (Fin n) (Fin n) ℚ) :
    whitener sqrt eig eigvec = Matrix.diagonal (whitenerScale sqrt eig) * eigvec := by
  ext i j
  simp [whitener, Matrix.diagonal_mul]

/-- C1: for a symmetric covariance with a valid eigendecomposition
(eigvec C eigvecT = diag(eig), rows of eigvec the eigenvectors), the
whitening matrix of _get_whitener satisfies W C WT = Id on the retained
subspace (the dimensions with eigenvalue > 0), and the pca restriction keeps
exactly effective-rank (n_nzero) rows. -/
theorem whitener_whitens (sqrt : ℚ → ℚ) {n : ℕ} (eig : Fin n → ℚ)
    (eigvec C : Matrix (Fin n) (Fin n) ℚ)
    (hsym : C.transpose = C)
    (hdec : eigvec * C * eigvec.transpose = Matrix.diagonal eig)
    (hsqrt : ∀ i, 0 < eig i → sqrt (eig i) * sqrt (eig i) = eig i) :
    (∀ i j : Fin n, 0 < eig i → 0 < eig j →
        (whitener sqrt eig eigvec * C * (whitener sqrt eig eigvec).transpose) i j
          = (1 : Matrix (Fin n) (Fin n) ℚ) i j) ∧
    (whitenerPCA sqrt eig eigvec).length = n_nzero eig := by
  constructor
  · intro i j hi hj
    have key : whitener sqrt eig eigvec * C * (whitener sqrt eig eigvec).transpose
        = Matrix.diagonal
            (fun k => whitenerScale sqrt eig k * eig k * whitenerScale sqrt eig k) := by
      rw [whitener_eq_diagonal_mul, Matrix.transpose_mul, Matrix.diagonal_transpose]
      have hassoc : Matrix.diagonal (whitenerScale sqrt eig) * eigvec * C *
            (eigvec.transpose * Matrix.diagonal (whitenerScale sqrt eig))
          = Matrix.diagonal (whitenerScale sqrt eig) * (eigvec * C * eigvec.transpose) *
            Matrix.diagonal (whitenerScale sqrt eig) := by
        simp only [Matrix.mul_assoc]
      rw [hassoc, hdec, Matrix.diagonal_mul_diagonal, Matrix.diagonal_mul_diagonal]
    rw [key]
    by_cases hij : i = j
    · subst hij
      rw [Matrix.diagonal_apply_eq, Matrix.one_apply_eq]
      have hs := hsqrt i hi
      have hsne : sqrt (eig i) ≠ 0 := by
        intro h0
        rw [h0, mul_zero] at hs
        exact absurd hs.symm (ne_of_gt hi)
      simp only [whitenerScale, if_pos hi]
      field_simp
      linarith [hs]
    · rw [Matrix.diagonal_apply_ne _ hij, Matrix.one_apply_ne hij]
  · simp [whitenerPCA, n_nzero]

/-- Witness for C1 at a concrete input: the 1-channel covariance [[4]] with
eigenvalue 4, eigenvector matrix the identity, and sqrt 4 = 2. -/
theorem whitener_whitens_witness :
    (∀ i j : Fin 1, 0 < (fun _ : Fin 1 => (4 : ℚ)) i → 0 < (fun _ : Fin 1 => (4 : ℚ)) j →
        ((whitener (fun _ => 2) (fun _ : Fin 1 => (4 : ℚ)) 1 *
            Matrix.diagonal (fun _ : Fin 1 => (4 : ℚ)) *
            (whitener (fun _ => 2) (fun _ : Fin 1 => (4 : ℚ)) 1).transpose :
            Matrix (Fin 1) (Fin 1) ℚ)) i j
          = (1 : Matrix (Fin 1) (Fin 1) ℚ) i j) ∧
    (whitenerPCA (fun _ => 2) (fun _ : Fin 1 => (4 : ℚ)) 1).length
      = n_nzero (fun _ : Fin 1 => (4 : ℚ)) :=
  whitener_whitens (fun _ => 2) (fun _ : Fin 1 => (4 : ℚ)) 1
    (Matrix.diagonal fun _ : Fin 1 => (4 : ℚ))
    (by simp) (by simp) (fun i hi => by norm_num)

/-- Matrix product written with explicit index sums, for the plain-function
blocks of the regularize loop (inner dimension m). -/
def mulMatF (m : ℕ) (A B : ℕ → ℕ → ℚ) : ℕ → ℕ → ℚ :=
  fun i j => sumRange m (fun t => A i t * B t j)

/-- Transpose of a plain-function matrix. -/
def transposeF (A : ℕ → ℕ → ℚ) : ℕ → ℕ → ℚ := fun i j => A j i

/-- this_C = C[np.ix_(idx, idx)] (cov.py line 1634). -/
def subMatF (C : ℕ → ℕ → ℚ) (idx : List ℕ) : ℕ → ℕ → ℚ :=
  fun a b => C (idx.getD a 0) (idx.getD b 0)

/-- One channel-type block of the regularize loop (cov.py lines 1623-1658):
the channel indices idx of the block inside the covariance, its
regularization factor reg, and the subspace basis U (idx.length rows, m
columns) that the source obtains from make_projector/svd (rank full with
proj) or from _smart_eigh (non-full rank), with U = eye, m = idx.length when
no restriction applies.  U comes from external decomposition primitives and
enters as data. -/
structure RegBlock where
  idx : List ℕ
  reg : ℚ
  m : ℕ
  U : ℕ → ℕ → ℚ

/-- In-block update (cov.py lines 1634-1657): this_C = U.T this_C U (m x m),
sigma = mean of its diagonal, add reg * sigma to the diagonal in place,
project back as U this_C U.T. -/
def regBlockUpdate (C : ℕ → ℕ → ℚ) (b : RegBlock) : ℕ → ℕ → ℚ :=
  let k := b.idx.length
  let red := mulMatF k (mulMatF k (transposeF b.U) (subMatF C b.idx)) b.U
  let sigma := meanDiag b.m red
  let regged : ℕ → ℕ → ℚ := fun i j => if i = j then red i j + b.reg * sigma else red i j
  mulMatF b.m (mulMatF b.m b.U regged) (transposeF b.U)

/-- C[np.ix_(idx, idx)] = B (cov.py line 1658): only entries with both row
and column inside idx are overwritten. -/
def writeBlockF (C : ℕ → ℕ → ℚ) (idx : List ℕ) (B : ℕ → ℕ → ℚ) : ℕ → ℕ → ℚ :=
  fun i j => if i ∈ idx ∧ j ∈ idx then B (idx.indexOf i) (idx.indexOf j) else C i j

/-- One iteration of the regularize loop: a zero factor skips the block
(continue, cov.py lines 1629-1631), otherwise the in-block update is written
back into the block. -/
def regularizeStep (C : ℕ → ℕ → ℚ) (b : RegBlock) : ℕ → ℕ → ℚ :=
  if b.reg = 0 then C else writeBlockF C b.idx (regBlockUpdate C b)

/-- The regularize loop over channel-type blocks (cov.py lines 1623-1658),
acting on the data of the copy made at entry (cov = cov.copy(), line 1569),
so the embedding of regularize is a pure function of its input. -/
def regularizeModel (C : ℕ → ℕ → ℚ) (blocks : List RegBlock) : ℕ → ℕ → ℚ :=
  blocks.foldl regularizeStep C

/-- A step leaves every entry outside the block-pair positions unchanged. -/
theorem regularizeStep_outside (C : ℕ → ℕ → ℚ) (b : RegBlock) (i j : ℕ)
    (h : ¬ (i ∈ b.idx ∧ j ∈ b.idx)) : regularizeStep C b i j = C i j := by
  unfold regularizeStep writeBlockF
  by_cases hr : b.reg = 0 <;> simp [hr, h]

/-- The loop leaves every entry that is not a within-block pair of any block
unchanged. -/
theorem regularizeModel_outside (blocks : List RegBlock) (C : ℕ → ℕ → ℚ) (i j : ℕ)
    (h : ∀ b ∈ blocks, ¬ (i ∈ b.idx ∧ j ∈ b.idx)) :
    regularizeModel C blocks i j = C i j := by
  induction blocks generalizing C with
  | nil => rfl
  | cons b bs ih =>
      have hstep := regularizeStep_outside C b i j (h b (by simp))
      have htail : regularizeModel (regularizeStep C b) bs i j = regularizeStep C b i j :=
        ih (regularizeStep C b) (fun b2 hb2 => h b2 (by simp [hb2]))
      calc regularizeModel C (b :: bs) i j
          = regularizeModel (regularizeStep C b) bs i j := rfl
        _ = regularizeStep C b i j := htail
        _ = C i j := hstep

/-- C9: for disjoint channel-type blocks, regularize modifies only entries
inside same-type blocks (every cross-block entry of the returned matrix
equals the corresponding input entry), and a block whose regularization
factor is zero is left entirely unchanged.  The loop acts on the copy made
by cov.copy() at entry, so the embedding is pure and the caller-side
Covariance is unchanged by construction. -/
theorem regularize_block_local (C : ℕ → ℕ → ℚ) (blocks : List RegBlock)
    (hdisj : List.Pairwise (fun b1 b2 => ∀ x ∈ b1.idx, x ∉ b2.idx) blocks) :
    (∀ i j : ℕ, (∀ b ∈ blocks, ¬ (i ∈ b.idx ∧ j ∈ b.idx)) →
        regularizeModel C blocks i j = C i j) ∧
    (∀ b ∈ blocks, b.reg = 0 → ∀ i j : ℕ, i ∈ b.idx → j ∈ b.idx →
        regularizeModel C blocks i j = C i j) := by
  constructor
  · intro i j h
    exact regularizeModel_outside blocks C i j h
  · induction blocks generalizing C with
    | nil => intro b hb; exact absurd hb (by simp)
    | cons hd tl ih =>
        intro b hb hreg i j hi hj
        rcases List.mem_cons.mp hb with rfl | hbtl
        · have hstep : regularizeStep C b = C := by
            unfold regularizeStep
            rw [if_pos hreg]
          have hrest : ∀ b2 ∈ tl, ¬ (i ∈ b2.idx ∧ j ∈ b2.idx) := by
            intro b2 hb2 hcon
            exact (List.pairwise_cons.mp hdisj).1 b2 hb2 i hi hcon.1
          calc regularizeModel C (b :: tl) i j
              = regularizeModel (regularizeStep C b) tl i j := rfl
            _ = regularizeStep C b i j := regularizeModel_outside tl _ i j hrest
            _ = C i j := by rw [hstep]
        · have hhd : ¬ (i ∈ hd.idx ∧ j ∈ hd.idx) := by
            intro hcon
            exact (List.pairwise_cons.mp hdisj).1 b hbtl i hcon.1 hi
          have hstep := regularizeStep_outside C hd i j hhd
          calc regularizeModel C (hd :: tl) i j
              = regularizeModel (regularizeStep C hd) tl i j := rfl
            _ = regularizeStep C hd i j :=
                ih (regularizeStep C hd) (List.pairwise_cons.mp hdisj).2 b hbtl hreg i j hi hj
            _ = C i j := hstep

/-- Witness for C9 at a concrete input: a 3-channel covariance with a
2-channel block (factor 1/10) and a 1-channel block (factor 0). -/
theorem regularize_block_local_witness :
    (List.Pairwise (fun b1 b2 => ∀ x ∈ b1.idx, x ∉ b2.idx)
      [RegBlock.mk [0, 1] (1/10) 2 (fun i j => if i = j then 1 else 0),
       RegBlock.mk [2] 0 1 (fun i j => if i = j then 1 else 0)]) ∧
    ((∀ i j : ℕ, (∀ b ∈
          [RegBlock.mk [0, 1] (1/10) 2 (fun i j => if i = j then 1 else 0),
           RegBlock.mk [2] 0 1 (fun i j => if i = j then 1 else 0)],
          ¬ (i ∈ b.idx ∧ j ∈ b.idx)) →
        regularizeModel (fun i j => (i : ℚ) + 2 * j)
          [RegBlock.mk [0, 1] (1/10) 2 (fun i j => if i = j then 1 else 0),
           RegBlock.mk [2] 0 1 (fun i j => if i = j then 1 else 0)] i j
          = (i : ℚ) + 2 * j) ∧
    (∀ b ∈ [RegBlock.mk [0, 1] (1/10) 2 (fun i j => if i = j then 1 else 0),
            RegBlock.mk [2] 0 1 (fun i j => if i = j then 1 else 0)],
        b.reg = 0 → ∀ i j : ℕ, i ∈ b.idx → j ∈ b.idx →
        regularizeModel (fun i j => (i : ℚ) + 2 * j)
          [RegBlock.mk [0, 1] (1/10) 2 (fun i j => if i = j then 1 else 0),
           RegBlock.mk [2] 0 1 (fun i j => if i = j then 1 else 0)] i j
          = (i : ℚ) + 2 * j)) := by
  have hdisj : List.Pairwise (fun b1 b2 => ∀ x ∈ b1.idx, x ∉ b2.idx)
      [RegBlock.mk [0, 1] (1/10) 2 (fun i j => if i = j then 1 else 0),
       RegBlock.mk [2] 0 1 (fun i j => if i = j then 1 else 0)] := by
    refine List.pairwise_cons.mpr ⟨?_, List.pairwise_singleton _ _⟩
    intro b2 hb2 x hx
    simp only [List.mem_singleton] at hb2
    subst hb2
    simp only [List.mem_cons, List.not_mem_nil, or_false, List.mem_singleton] at hx ⊢
    omega
  exact ⟨hdisj, regularize_block_local (fun i j => (i : ℚ) + 2 * j) _ hdisj⟩

/-- One estimator result of compute_covariance: the method tag written by
cov.update(method=this_method, ...) (cov.py line 897) and the attached
held-out log-likelihood (None when absent). -/
structure CovResult where
  method : String
  loglik : Option ℚ
deriving DecidableEq

/-- Loglik attachment of _compute_covariance_auto (cov.py lines 1078-1093):
with more than one requested method every result gets
loglik = _cross_val(data, estimator, cv, n_jobs); with exactly one method
loglik is None and no cross-validation is run.  The numeric score is
external (sklearn cross_val_score) and enters as the function score.  The
out dict of the source is keyed by method name, so duplicates would
collapse; the theorem therefore assumes the requested names distinct. -/
def covResults (methods : List String) (score : String → ℚ) : List CovResult :=
  methods.map (fun m =>
    CovResult.mk m (if 1 < methods.length then some (score m) else none))

/-- The comparison of covs.sort(key=lambda c: c.loglik, reverse=True)
(cov.py line 900): x sorts strictly before y when its loglik is greater.
Python only ever compares attached float logliks here - the None case occurs
only in a singleton list, which is sorted without any comparison. -/
def loglikGT : Option ℚ → Option ℚ → Bool
  | some a, some b => decide (b < a)
  | _, _ => false

/-- Stable descending insertion: the inserted element moves past an earlier
element only when its loglik is strictly greater, so equal logliks keep
their insertion order, exactly as the stable Python list sort does. -/
def insertDesc (x : CovResult) : List CovResult → List CovResult
  | [] => [x]
  | y :: ys => if loglikGT x.loglik y.loglik then x :: y :: ys else y :: insertDesc x ys

/-- covs.sort(key=lambda c: c.loglik, reverse=True) as a stable descending
insertion sort; a stable sort is determined by its comparison, so this is
observationally the Python sort. -/
def sortDesc (l : List CovResult) : List CovResult :=
  l.foldl (fun acc x => insertDesc x acc) []

/-- compute_covariance result selection (cov.py lines 891-916): the result
list is built in method order, sorted by loglik descending, and with more
than one entry either all are returned (return_estimators=True) or the
best-scoring one; a single entry is returned directly (covs[0]). -/
def computeCovarianceModel (methods : List String) (score : String → ℚ)
    (returnEstimators : Bool) : List CovResult :=
  let covs := sortDesc (covResults methods score)
  if 1 < covs.length then
    (if returnEstimators then covs else covs.take 1)
  else covs.take 1

/-- Inserting permutes to consing. -/
theorem insertDesc_perm (x : CovResult) (l : List CovResult) :
    (insertDesc x l).Perm (x :: l) := by
  induction l with
  | nil => exact List.Perm.refl _
  | cons y ys ih =>
      cases hgt : loglikGT x.loglik y.loglik with
      | true => simp [insertDesc, hgt]
      | false =>
          simp only [insertDesc, hgt, Bool.false_eq_true, if_false]
          exact (ih.cons y).trans (List.Perm.swap x y ys)

/-- The sort is a permutation of its input. -/
theorem sortDesc_perm (l : List CovResult) : (sortDesc l).Perm l := by
  suffices h : ∀ (l acc : List CovResult),
      (l.foldl (fun acc x => insertDesc x acc) acc).Perm (acc ++ l) by
    simpa [sortDesc] using h l []
  intro l
  induction l with
  | nil => intro acc; simp
  | cons x xs ih =>
      intro acc
      have h1 := ih (insertDesc x acc)
      have h2 : (insertDesc x acc ++ xs).Perm ((x :: acc) ++ xs) :=
        (insertDesc_perm x acc).append_right xs
      have h3 : ((x :: acc) ++ xs).Perm (acc ++ x :: xs) := List.perm_middle.symm
      exact h1.trans (h2.trans h3)

/-- Strict comparison one way forbids it the other way. -/
theorem loglikGT_asymm {a b : Option ℚ} (h : loglikGT a b = true) :
    loglikGT b a = false := by
  cases a <;> cases b <;> simp_all [loglikGT] <;> linarith

/-- No element strictly exceeds itself. -/
theorem loglikGT_irrefl (a : Option ℚ) : loglikGT a a = false := by
  cases a <;> simp [loglikGT]

/-- If x strictly exceeds y and z does not exceed y, z does not exceed x. -/
theorem loglikGT_step {a b c : Option ℚ} (h1 : loglikGT a b = true)
    (h2 : loglikGT c b = false) : loglikGT c a = false := by
  cases a <;> cases b <;> cases c <;> simp_all [loglikGT] <;> linarith

/-- If x strictly exceeds y and z does not exceed y, then z and x hold
different logliks. -/
theorem loglikGT_ne {a b c : Option ℚ} (h1 : loglikGT a b = true)
    (h2 : loglikGT c b = false) : c ≠ a := by
  cases a with
  | none => simp [loglikGT] at h1
  | some xv =>
    cases b with
    | none => simp [loglikGT] at h1
    | some yv =>
      simp only [loglikGT, decide_eq_true_eq] at h1
      cases c with
      | none => simp
      | some zv =>
        simp only [loglikGT, decide_eq_false_iff_not] at h2
        intro hzx
        rw [Option.some.injEq] at hzx
        subst hzx
        exact h2 h1

/-- Inserting into a descending list keeps it descending. -/
theorem insertDesc_sorted (x : CovResult) (l : List CovResult)
    (hl : l.Pairwise (fun a b => loglikGT b.loglik a.loglik = false)) :
    (insertDesc x l).Pairwise (fun a b => loglikGT b.loglik a.loglik = false) := by
  induction l with
  | nil => simp [insertDesc]
  | cons y ys ih =>
      rcases List.pairwise_cons.mp hl with ⟨hy, hys⟩
      cases hgt : loglikGT x.loglik y.loglik with
      | true =>
          simp only [insertDesc, hgt, if_true]
          refine List.pairwise_cons.mpr ⟨?_, hl⟩
          intro z hz
          rcases List.mem_cons.mp hz with rfl | hzys
          · exact loglikGT_asymm hgt
          · exact loglikGT_step hgt (hy z hzys)
      | false =>
          simp only [insertDesc, hgt, Bool.false_eq_true, if_false]
          refine List.pairwise_cons.mpr ⟨?_, ih hys⟩
          intro z hz
          have hz2 : z ∈ x :: ys := (insertDesc_perm x ys).mem_iff.mp hz
          rcases List.mem_cons.mp hz2 with rfl | hzys
          · exact hgt
          · exact hy z hzys

/-- The sorted result is descending in loglik. -/
theorem sortDesc_sorted (l : List CovResult) :
    (sortDesc l).Pairwise (fun a b => loglikGT b.loglik a.loglik = false) := by
  suffices h : ∀ (l acc : List CovResult),
      acc.Pairwise (fun a b => loglikGT b.loglik a.loglik = false) →
      (l.foldl (fun acc x => insertDesc x acc) acc).Pairwise
        (fun a b => loglikGT b.loglik a.loglik = false) from
    h l [] List.Pairwise.nil
  intro l
  induction l with
  | nil => intro acc hacc; exact hacc
  | cons x xs ih => intro acc hacc; exact ih _ (insertDesc_sorted x acc hacc)

/-- Inserting an element with loglik v into a descending list appends it
after every earlier element with loglik v. -/
theorem insertDesc_filter_eq (x : CovResult) (l : List CovResult) (v : Option ℚ)
    (hl : l.Pairwise (fun a b => loglikGT b.loglik a.loglik = false))
    (hx : x.loglik = v) :
    (insertDesc x l).filter (fun r => decide (r.loglik = v))
      = l.filter (fun r => decide (r.loglik = v)) ++ [x] := by
  induction l with
  | nil => simp [insertDesc, hx]
  | cons y ys ih =>
      rcases List.pairwise_cons.mp hl with ⟨hy, hys⟩
      cases hgt : loglikGT x.loglik y.loglik with
      | false =>
          simp only [insertDesc, hgt, Bool.false_eq_true, if_false, List.filter_cons]
          rw [ih hys]
          by_cases hpy : y.loglik = v <;> simp [hpy]
      | true =>
          have hnone : ∀ z ∈ y :: ys, ¬ (z.loglik = v) := by
            intro z hz
            rw [← hx]
            rcases List.mem_cons.mp hz with rfl | hzys
            · exact loglikGT_ne hgt (loglikGT_irrefl z.loglik)
            · exact loglikGT_ne hgt (hy z hzys)
          have hfil : (y :: ys).filter (fun r => decide (r.loglik = v)) = [] := by
            rw [List.filter_eq_nil_iff]
            intro a ha
            simpa using hnone a ha
          have hins : insertDesc x (y :: ys) = x :: y :: ys := by
            simp [insertDesc, hgt]
          rw [hins, List.filter_cons_of_pos (by simpa using hx), hfil]
          simp

/-- Inserting an element whose loglik is not v leaves the v-subsequence
unchanged. -/
theorem insertDesc_filter_ne (x : CovResult) (l : List CovResult) (v : Option ℚ)
    (hx : ¬ (x.loglik = v)) :
    (insertDesc x l).filter (fun r => decide (r.loglik = v))
      = l.filter (fun r => decide (r.loglik = v)) := by
  induction l with
  | nil => simp [insertDesc, hx]
  | cons y ys ih =>
      cases hgt : loglikGT x.loglik y.loglik with
      | true => simp [insertDesc, hgt, List.filter_cons, hx]
      | false =>
          simp only [insertDesc, hgt, Bool.false_eq_true, if_false, List.filter_cons]
          rw [ih]

/-- Stability of the sort: for every loglik value the subsequence of entries
holding that value is exactly the input subsequence, so ties keep insertion
order. -/
theorem sortDesc_stable (l : List CovResult) (v : Option ℚ) :
    (sortDesc l).filter (fun r => decide (r.loglik = v))
      = l.filter (fun r => decide (r.loglik = v)) := by
  suffices h : ∀ (l acc : List CovResult),
      acc.Pairwise (fun a b => loglikGT b.loglik a.loglik = false) →
      (l.foldl (fun acc x => insertDesc x acc) acc).filter
          (fun r => decide (r.loglik = v))
        = acc.filter (fun r => decide (r.loglik = v))
          ++ l.filter (fun r => decide (r.loglik = v)) by
    simpa [sortDesc] using h l [] List.Pairwise.nil
  intro l
  induction l with
  | nil => intro acc hacc; simp
  | cons x xs ih =>
      intro acc hacc
      have hstep : (insertDesc x acc).filter (fun r => decide (r.loglik = v))
          = acc.filter (fun r => decide (r.loglik = v))
            ++ (if x.loglik = v then [x] else []) := by
        by_cases hpx : x.loglik = v
        · rw [insertDesc_filter_eq x acc v hacc hpx, if_pos hpx]
        · rw [insertDesc_filter_ne x acc v hpx, if_neg hpx]
          simp
      calc (List.foldl (fun acc x => insertDesc x acc) acc (x :: xs)).filter
            (fun r => decide (r.loglik = v))
          = (List.foldl (fun acc x => insertDesc x acc) (insertDesc x acc) xs).filter
            (fun r => decide (r.loglik = v)) := rfl
        _ = (insertDesc x acc).filter (fun r => decide (r.loglik = v))
            ++ xs.filter (fun r => decide (r.loglik = v)) :=
            ih (insertDesc x acc) (insertDesc_sorted x acc hacc)
        _ = acc.filter (fun r => decide (r.loglik = v))
            ++ (x :: xs).filter (fun r => decide (r.loglik = v)) := by
            rw [hstep, List.filter_cons]
            by_cases hpx : x.loglik = v <;> simp [hpx]

/-- C5: with at least two distinct requested methods and
return_estimators=True, compute_covariance returns exactly one result per
requested method (the method tags are a permutation of the request list),
every result carries an attached held-out log-likelihood for its own method,
the results are sorted descending by log-likelihood, and ties keep insertion
order (for every value the subsequence of results holding it equals the
pre-sort subsequence); with exactly one requested method the single result
carries no likelihood (loglik = None) and the scoring function is never
consulted. -/
theorem computeCovariance_ranked (methods : List String) (score : String → ℚ)
    (hnd : methods.Nodup) (hlen : 2 ≤ methods.length) :
    ((computeCovarianceModel methods score true).map CovResult.method).Perm methods ∧
    (∀ r ∈ computeCovarianceModel methods score true,
        r.loglik = some (score r.method)) ∧
    (computeCovarianceModel methods score true).Pairwise
      (fun a b => loglikGT b.loglik a.loglik = false) ∧
    (∀ v : Option ℚ,
      (computeCovarianceModel methods score true).filter
          (fun r => decide (r.loglik = v))
        = (covResults methods score).filter (fun r => decide (r.loglik = v))) ∧
    (∀ m : String, computeCovarianceModel [m] score true = [CovResult.mk m none]) := by
  have hlencovs : (sortDesc (covResults methods score)).length = methods.length := by
    rw [(sortDesc_perm _).length_eq]
    simp [covResults]
  have h1 : 1 < (sortDesc (covResults methods score)).length := by
    rw [hlencovs]; omega
  have hmodel : computeCovarianceModel methods score true
      = sortDesc (covResults methods score) := by
    simp [computeCovarianceModel, h1]
  refine ⟨?_, ?_, ?_, ?_, ?_⟩
  · rw [hmodel]
    have hm := (sortDesc_perm (covResults methods score)).map CovResult.method
    have heq : (covResults methods score).map CovResult.method = methods := by
      unfold covResults
      rw [List.map_map]
      have hfun : (CovResult.method ∘ fun m =>
          CovResult.mk m (if 1 < methods.length then some (score m) else none)) = id := by
        funext m
        rfl
      rw [hfun, List.map_id]
    rw [heq] at hm
    exact hm
  · intro r hr
    rw [hmodel] at hr
    have hr2 : r ∈ covResults methods score := (sortDesc_perm _).mem_iff.mp hr
    simp only [covResults, List.mem_map] at hr2
    obtain ⟨m, hm, rfl⟩ := hr2
    have hgt1 : 1 < methods.length := by omega
    simp [hgt1]
  · rw [hmodel]
    exact sortDesc_sorted _
  · intro v
    rw [hmodel]
    exact sortDesc_stable _ v
  · intro m
    rfl

/-- Witness for C5 at a concrete input: methods empirical and shrinkage with
scores 1 and 2. -/
theorem computeCovariance_ranked_witness :
    (["empirical", "shrinkage"].Nodup ∧ 2 ≤ ["empirical", "shrinkage"].length) ∧
    (((computeCovarianceModel ["empirical", "shrinkage"]
          (fun m => if m = "empirical" then 1 else 2) true).map CovResult.method).Perm
        ["empirical", "shrinkage"] ∧
    (∀ r ∈ computeCovarianceModel ["empirical", "shrinkage"]
          (fun m => if m = "empirical" then 1 else 2) true,
        r.loglik = some ((fun m => if m = "empirical" then 1 else 2) r.method)) ∧
    (computeCovarianceModel ["empirical", "shrinkage"]
        (fun m => if m = "empirical" then 1 else 2) true).Pairwise
      (fun a b => loglikGT b.loglik a.loglik = false) ∧
    (∀ v : Option ℚ,
      (computeCovarianceModel ["empirical", "shrinkage"]
          (fun m => if m = "empirical" then 1 else 2) true).filter
          (fun r => decide (r.loglik = v))
        = (covResults ["empirical", "shrinkage"]
            (fun m => if m = "empirical" then 1 else 2)).filter
            (fun r => decide (r.loglik = v))) ∧
    (∀ m : String, computeCovarianceModel [m]
        (fun m => if m = "empirical" then 1 else 2) true = [CovResult.mk m none])) :=
  ⟨⟨by decide, by decide⟩,
   computeCovariance_ranked ["empirical", "shrinkage"]
     (fun m => if m = "empirical" then 1 else 2) (by decide) (by decide)⟩

/-- Outcome of one _cross_val call inside _auto_low_rank_model (cov.py lines
1150-1153): a finite float score, positive or negative infinity, or NaN; a
ValueError from the split is turned into positive infinity by the source.
The numeric scoring is external (sklearn) and enters as a function from the
candidate component count to this outcome. -/
inductive CVScore
  | fin (q : ℚ)
  | pinf
  | ninf
  | nan
deriving DecidableEq

/-- The break test of cov.py line 1154, np.isinf(score) or score > 0:
np.isinf catches both infinities, and a finite positive score also breaks. -/
def breakScore : CVScore → Bool
  | CVScore.fin q => decide (0 < q)
  | CVScore.pinf => true
  | CVScore.ninf => true
  | CVScore.nan => false

/-- The cell value stored for a non-breaking candidate (cov.py lines
1158-1159): a finite score is written into scores[ii] (storing NaN leaves
the cell NaN, modelled as none; -inf is excluded by the guard but would have
broken the loop already).  A breaking candidate never reaches this point and
its cell stays NaN. -/
def storedScore : CVScore → Option ℚ
  | CVScore.fin q => if q ≤ 0 then some q else none
  | _ => none

/-- The early-stopping test of cov.py line 1161 evaluated right after cell
ii = acc.length - 1 was stored: ii >= 3 and both differences of
scores[ii-3:ii] (cells ii-3, ii-2, ii-1, not the current one) negative; any
NaN cell makes the numpy comparison False. -/
def earlyStop (acc : List (Option ℚ)) : Bool :=
  let ii := acc.length - 1
  if 3 ≤ ii then
    match acc.getD (ii - 3) none, acc.getD (ii - 2) none, acc.getD (ii - 1) none with
    | some a, some b, some c => decide (b < a ∧ c < b)
    | _, _, _ => false
  else false

/-- The candidate loop of _auto_low_rank_model (cov.py lines 1148-1164) with
stop_early=True, as compute_covariance always passes: scores is preallocated
full of NaN (none), and each iteration either breaks (leaving its own and
all later cells NaN) or stores its cell and possibly early-stops. -/
def goSearch (score : ℕ → CVScore) : List ℕ → List (Option ℚ) → List (Option ℚ)
  | [], acc => acc
  | n :: rest, acc =>
      if breakScore (score n) then acc ++ List.replicate (rest.length + 1) none
      else
        let acc2 := acc ++ [storedScore (score n)]
        if earlyStop acc2 then acc2 ++ List.replicate rest.length none
        else goSearch score rest acc2

/-- The scores array after the candidate loop. -/
def autoLowRankScores (score : ℕ → CVScore) (cands : List ℕ) : List (Option ℚ) :=
  goSearch score cands []

/-- np.nanargmax with its first-maximum tie-breaking: index and value of the
first greatest non-NaN cell, none when every cell is NaN. -/
def nanargmax : List (Option ℚ) → Option (ℕ × ℚ)
  | [] => none
  | none :: rest => (nanargmax rest).map (fun p => (p.1 + 1, p.2))
  | some q :: rest =>
      match nanargmax rest with
      | none => some (0, q)
      | some (i, p) => if q < p then some (i + 1, p) else some (0, q)

/-- Final phase of _auto_low_rank_model (cov.py lines 1166-1173): raise when
every cell of scores is NaN (np.isnan(scores).all()), else return the
candidate iter_n_components[np.nanargmax(scores)]. -/
def autoLowRankBest (score : ℕ → CVScore) (cands : List ℕ) : Except String ℕ :=
  if (autoLowRankScores score cands).all (fun s => s.isNone) then
    Except.error "Could not estimate covariance because all scores were NaN"
  else
    match nanargmax (autoLowRankScores score cands) with
    | some ip => Except.ok (cands.getD ip.1 0)
    | none => Except.error "unreachable"

/-- A cross-validation outcome that is not a finite number. -/
def NonfiniteScore (s : CVScore) : Prop :=
  s = CVScore.pinf ∨ s = CVScore.ninf ∨ s = CVScore.nan

instance (s : CVScore) : Decidable (NonfiniteScore s) := by
  unfold NonfiniteScore
  infer_instance

/-- A stored cell holding a value comes from a finite non-positive score. -/
theorem storedScore_eq_some {s : CVScore} {q : ℚ} (h : storedScore s = some q) :
    s = CVScore.fin q ∧ q ≤ 0 := by
  cases s with
  | fin qv =>
      simp only [storedScore] at h
      by_cases hqv : qv ≤ 0
      · rw [if_pos hqv] at h
        have hq : qv = q := Option.some.inj h
        subst hq
        exact ⟨rfl, hqv⟩
      · rw [if_neg hqv] at h
        exact Option.noConfusion h
  | pinf => simp [storedScore] at h
  | ninf => simp [storedScore] at h
  | nan => simp [storedScore] at h

/-- nanargmax returns none exactly on an all-NaN array. -/
theorem nanargmax_eq_none_iff (l : List (Option ℚ)) :
    nanargmax l = none ↔ ∀ s ∈ l, s = none := by
  induction l with
  | nil => simp [nanargmax]
  | cons hd tl ih =>
      cases hd with
      | none =>
          simp only [nanargmax, List.mem_cons]
          constructor
          · intro h s hs
            have htl : nanargmax tl = none := by
              cases hn : nanargmax tl with
              | none => rfl
              | some p => rw [hn] at h; exact Option.noConfusion h
            rcases hs with rfl | hs
            · rfl
            · exact (ih.mp htl) s hs
          · intro h
            rw [ih.mpr (fun s hs => h s (Or.inr hs))]
            rfl
      | some q =>
          constructor
          · intro h
            exfalso
            unfold nanargmax at h
            cases htl : nanargmax tl with
            | none =>
                rw [htl] at h
                simp only [] at h
                exact Option.noConfusion h
            | some p =>
                rw [htl] at h
                rcases p with ⟨i, pv⟩
                simp only [] at h
                by_cases hq : q < pv
                · rw [if_pos hq] at h
                  exact Option.noConfusion h
                · rw [if_neg hq] at h
                  exact Option.noConfusion h
          · intro h
            exact absurd (h (some q) (by simp)) (by simp)

/-- Correctness of nanargmax: the returned pair points at a cell that holds
its value, and that value is greatest among all non-NaN cells (ties go to
the first occurrence). -/
theorem nanargmax_spec (l : List (Option ℚ)) (i : ℕ) (p : ℚ)
    (h : nanargmax l = some (i, p)) :
    l.get? i = some (some p) ∧ ∀ j q, l.get? j = some (some q) → q ≤ p := by
  induction l generalizing i p with
  | nil => simp [nanargmax] at h
  | cons hd tl ih =>
      cases hd with
      | none =>
          unfold nanargmax at h
          cases htl : nanargmax tl with
          | none =>
              rw [htl] at h
              simp only [Option.map_none'] at h
              exact Option.noConfusion h
          | some p2 =>
              rcases p2 with ⟨i2, pv2⟩
              rw [htl] at h
              simp only [Option.map_some', Option.some.injEq, Prod.mk.injEq] at h
              obtain ⟨rfl, rfl⟩ := h
              obtain ⟨hcell, hmax⟩ := ih i2 pv2 htl
              refine ⟨by simpa using hcell, ?_⟩
              intro j q hj
              cases j with
              | zero => simp at hj
              | succ j2 => exact hmax j2 q (by simpa using hj)
      | some qh =>
          unfold nanargmax at h
          cases htl : nanargmax tl with
          | none =>
              rw [htl] at h
              simp only [] at h
              simp only [Option.some.injEq, Prod.mk.injEq] at h
              obtain ⟨rfl, rfl⟩ := h
              refine ⟨rfl, ?_⟩
              intro j q hj
              cases j with
              | zero =>
                  have hpq : qh = q := Option.some.inj (by simpa using hj)
                  exact le_of_eq hpq.symm
              | succ j2 =>
                  exfalso
                  have hmem : some q ∈ tl := List.get?_mem (by simpa using hj)
                  exact Option.noConfusion ((nanargmax_eq_none_iff tl).mp htl (some q) hmem)
          | some p2 =>
              rcases p2 with ⟨i2, pv2⟩
              rw [htl] at h
              simp only [] at h
              obtain ⟨hcell, hmax⟩ := ih i2 pv2 htl
              by_cases hq : qh < pv2
              · rw [if_pos hq] at h
                simp only [Option.some.injEq, Prod.mk.injEq] at h
                obtain ⟨rfl, rfl⟩ := h
                refine ⟨by simpa using hcell, ?_⟩
                intro j q hj
                cases j with
                | zero =>
                    have hqq : qh = q := Option.some.inj (by simpa using hj)
                    rw [← hqq]
                    exact le_of_lt hq
                | succ j2 => exact hmax j2 q (by simpa using hj)
              · rw [if_neg hq] at h
                simp only [Option.some.injEq, Prod.mk.injEq] at h
                obtain ⟨rfl, rfl⟩ := h
                refine ⟨rfl, ?_⟩
                intro j q hj
                cases j with
                | zero =>
                    have hpq : qh = q := Option.some.inj (by simpa using hj)
                    exact le_of_eq hpq.symm
                | succ j2 =>
                    exact le_trans (hmax j2 q (by simpa using hj)) (le_of_not_lt hq)

/-- The loop never records anything when every candidate scores non-finite:
each iteration either breaks (infinities) or stores a NaN cell (NaN). -/
theorem goSearch_all_none (score : ℕ → CVScore) (cands : List ℕ)
    (acc : List (Option ℚ)) (hacc : ∀ s ∈ acc, s = none)
    (h : ∀ k ∈ cands, NonfiniteScore (score k)) :
    ∀ s ∈ goSearch score cands acc, s = none := by
  induction cands generalizing acc with
  | nil => exact hacc
  | cons n rest ih =>
      have hn := h n (by simp)
      have hst : storedScore (score n) = none := by
        rcases hn with h1 | h1 | h1 <;> simp [h1, storedScore]
      have hacc2 : ∀ s ∈ acc ++ [storedScore (score n)], s = none := by
        intro s hs
        rcases List.mem_append.mp hs with hs | hs
        · exact hacc s hs
        · rw [hst] at hs
          simpa using hs
      unfold goSearch
      by_cases hbr : breakScore (score n) = true
      · rw [if_pos hbr]
        intro s hs
        rcases List.mem_append.mp hs with hs | hs
        · exact hacc s hs
        · exact List.eq_of_mem_replicate hs
      · rw [if_neg hbr]
        by_cases hes : earlyStop (acc ++ [storedScore (score n)]) = true
        · rw [if_pos hes]
          intro s hs
          rcases List.mem_append.mp hs with hs | hs
          · exact hacc2 s hs
          · exact List.eq_of_mem_replicate hs
        · rw [if_neg hes]
          exact ih (acc ++ [storedScore (score n)]) hacc2
            (fun k hk => h k (by simp [hk]))

/-- Every recorded cell of the scores array corresponds positionally to a
candidate whose cross-validation score was the finite non-positive value
stored there. -/
theorem goSearch_cell (score : ℕ → CVScore) (cands : List ℕ)
    (acc : List (Option ℚ)) (j : ℕ) (q : ℚ)
    (h : (goSearch score cands acc).get? j = some (some q)) :
    (j < acc.length ∧ acc.get? j = some (some q)) ∨
    (acc.length ≤ j ∧ ∃ c, cands.get? (j - acc.length) = some c ∧
      score c = CVScore.fin q ∧ q ≤ 0) := by
  induction cands generalizing acc with
  | nil =>
      left
      unfold goSearch at h
      have hj : j < acc.length := by
        by_contra hcon
        rw [List.get?_eq_none.mpr (by omega)] at h
        exact Option.noConfusion h
      exact ⟨hj, h⟩
  | cons n rest ih =>
      have hleft : ∀ (l : List (Option ℚ)), (∀ s ∈ l, s = none) →
          (acc ++ l).get? j = some (some q) →
          j < acc.length ∧ acc.get? j = some (some q) := by
        intro l hl hget
        by_cases hj : j < acc.length
        · rw [List.get?_append hj] at hget
          exact ⟨hj, hget⟩
        · exfalso
          rw [List.get?_append_right (by omega)] at hget
          exact Option.noConfusion (hl (some q) (List.get?_mem hget))
      unfold goSearch at h
      by_cases hbr : breakScore (score n) = true
      · rw [if_pos hbr] at h
        exact Or.inl (hleft _ (fun s hs => List.eq_of_mem_replicate hs) h)
      · rw [if_neg hbr] at h
        by_cases hes : earlyStop (acc ++ [storedScore (score n)]) = true
        · rw [if_pos hes, List.append_assoc] at h
          by_cases hj : j < acc.length
          · left
            rw [List.get?_append hj] at h
            exact ⟨hj, h⟩
          · right
            rw [List.get?_append_right (by omega)] at h
            cases hdj : j - acc.length with
            | zero =>
                rw [hdj] at h
                have hcell : storedScore (score n) = some q := Option.some.inj h
                obtain ⟨hfin, hq0⟩ := storedScore_eq_some hcell
                refine ⟨by omega, n, ?_, hfin, hq0⟩
                simp [hdj]
            | succ j2 =>
                exfalso
                rw [hdj] at h
                have hmem : some q ∈ List.replicate rest.length (none : Option ℚ) :=
                  List.get?_mem (by simpa using h)
                exact Option.noConfusion (List.eq_of_mem_replicate hmem)
        · rw [if_neg hes] at h
          rcases ih (acc ++ [storedScore (score n)]) h with ⟨hj, hget⟩ | ⟨hj, c, hc, hsc, hq0⟩
          · rw [List.length_append, List.length_singleton] at hj
            by_cases hja : j < acc.length
            · left
              rw [List.get?_append hja] at hget
              exact ⟨hja, hget⟩
            · right
              have hj0 : j = acc.length := by omega
              rw [List.get?_append_right (by omega), hj0, Nat.sub_self] at hget
              simp only [List.get?_cons_zero] at hget
              have hcell : storedScore (score n) = some q := Option.some.inj hget
              obtain ⟨hfin, hq0⟩ := storedScore_eq_some hcell
              refine ⟨by omega, n, ?_, hfin, hq0⟩
              rw [hj0, Nat.sub_self]
              rfl
          · right
            rw [List.length_append, List.length_singleton] at hj
            refine ⟨by omega, c, ?_, hsc, hq0⟩
            have harith : j - acc.length = (j - (acc.length + 1)) + 1 := by omega
            rw [harith]
            simpa using hc

/-- C8 counterexample: one candidate (5 components) whose cross-validation
score is the finite value 1.  Because the score is positive, the break of
cov.py line 1154 fires before anything is recorded, every cell stays NaN,
and the search raises the estimation-failure error even though a candidate
had a finite score - refuting the claim that a finite candidate score
guarantees a returned model. -/
theorem autoLowRankBest_finite_positive_error :
    (fun _ : ℕ => CVScore.fin 1) 5 = CVScore.fin 1 ∧
    autoLowRankBest (fun _ : ℕ => CVScore.fin 1) [5] =
      Except.error "Could not estimate covariance because all scores were NaN" :=
  ⟨rfl, rfl⟩

/-- C8 amended: if every candidate cross-validation outcome is non-finite,
_auto_low_rank_model raises the all-NaN estimation failure rather than
returning a model; and if at least one finite score was recorded (the loop
records exactly the finite non-positive scores it reaches), the search
returns the candidate whose recorded score is maximal among the recorded
scores, the first such on ties.  A finite positive score is treated like an
infinity: it breaks the search unrecorded. -/
theorem autoLowRank_failure_or_argmax (score : ℕ → CVScore) (cands : List ℕ) :
    ((∀ k ∈ cands, NonfiniteScore (score k)) →
        autoLowRankBest score cands =
          Except.error "Could not estimate covariance because all scores were NaN") ∧
    ((∃ i q, (autoLowRankScores score cands).get? i = some (some q)) →
        ∃ j p c, nanargmax (autoLowRankScores score cands) = some (j, p) ∧
          cands.get? j = some c ∧ score c = CVScore.fin p ∧ p ≤ 0 ∧
          (∀ m r, (autoLowRankScores score cands).get? m = some (some r) → r ≤ p) ∧
          autoLowRankBest score cands = Except.ok c) := by
  constructor
  · intro h
    have hall : ∀ s ∈ autoLowRankScores score cands, s = none :=
      goSearch_all_none score cands [] (by simp) h
    have hb : (autoLowRankScores score cands).all (fun s => s.isNone) = true := by
      rw [List.all_eq_true]
      intro s hs
      rw [hall s hs]
      rfl
    unfold autoLowRankBest
    rw [if_pos hb]
  · rintro ⟨i, q, hi⟩
    have hnotall : ¬ ((autoLowRankScores score cands).all (fun s => s.isNone) = true) := by
      intro hb
      have hmem : some q ∈ autoLowRankScores score cands := List.get?_mem hi
      have := List.all_eq_true.mp hb (some q) hmem
      simp at this
    have hna : ¬ (nanargmax (autoLowRankScores score cands) = none) := by
      intro hn
      have hall := (nanargmax_eq_none_iff _).mp hn
      have hmem : some q ∈ autoLowRankScores score cands := List.get?_mem hi
      exact Option.noConfusion (hall (some q) hmem)
    cases hn : nanargmax (autoLowRankScores score cands) with
    | none => exact absurd hn hna
    | some jp =>
        rcases jp with ⟨j, p⟩
        obtain ⟨hcell, hmax⟩ := nanargmax_spec _ j p hn
        rcases goSearch_cell score cands [] j p hcell with ⟨hj, _⟩ | ⟨_, c, hc, hsc, hp0⟩
        · simp at hj
        · have hc2 : cands.get? j = some c := by simpa using hc
          refine ⟨j, p, c, rfl, hc2, hsc, hp0, hmax, ?_⟩
          have hgd : cands.getD j 0 = c := by
            rw [List.getD_eq_getElem?_getD, ← List.get?_eq_getElem?, hc2]
            rfl
          unfold autoLowRankBest
          rw [if_neg hnotall, hn]
          simp only []
          rw [hgd]

/-- Witness for C8 at concrete inputs: an all-NaN scorer over one candidate
raises, and a scorer giving the two candidates 4 and 9 the finite scores -1
and -2 makes the search return candidate 4, the recorded maximum. -/
theorem autoLowRank_failure_or_argmax_witness :
    ((∀ k ∈ [7], NonfiniteScore ((fun _ : ℕ => CVScore.nan) k)) ∧
      autoLowRankBest (fun _ : ℕ => CVScore.nan) [7] =
        Except.error "Could not estimate covariance because all scores were NaN") ∧
    ((autoLowRankScores (fun k : ℕ => if k = 4 then CVScore.fin (-1) else CVScore.fin (-2))
        [4, 9]).get? 0 = some (some (-1)) ∧
      ∃ j p c, nanargmax (autoLowRankScores
          (fun k : ℕ => if k = 4 then CVScore.fin (-1) else CVScore.fin (-2)) [4, 9])
          = some (j, p) ∧
        [4, 9].get? j = some c ∧
        (fun k : ℕ => if k = 4 then CVScore.fin (-1) else CVScore.fin (-2)) c
          = CVScore.fin p ∧ p ≤ 0 ∧
        (∀ m r, (autoLowRankScores
            (fun k : ℕ => if k = 4 then CVScore.fin (-1) else CVScore.fin (-2))
            [4, 9]).get? m = some (some r) → r ≤ p) ∧
        autoLowRankBest
            (fun k : ℕ => if k = 4 then CVScore.fin (-1) else CVScore.fin (-2)) [4, 9]
          = Except.ok c) :=
  ⟨⟨by decide,
    (autoLowRank_failure_or_argmax (fun _ : ℕ => CVScore.nan) [7]).1 (by decide)⟩,
   ⟨rfl,
    (autoLowRank_failure_or_argmax
        (fun k : ℕ => if k = 4 then CVScore.fin (-1) else CVScore.fin (-2)) [4, 9]).2
      ⟨0, -1, rfl⟩⟩⟩

end MneCov
